import Mathlib

/-!
# Tools: tools, tool registry and tool chain registry (`Tool.h`, `App.cpp`)

A shallow embedding of the classes of namespace `Tools`.

Modelling conventions

* `std::string` is a Lean `String`; one `Char` stands for one `char` of the source.
* `Tool::p_args` (`unordered_map<string, vector<string>>`) is only ever accessed by
  `find`, `operator[]` and `erase`, never iterated by the code, so it is modelled by its
  lookup function `String → Option (List String)`: `none` is `find(..) == end()`.
* The maps the code iterates (`Tool_Registry::p_map`, `Tool_Chain_Entry::launch_args`) are
  association lists, listed in iteration order; a new key is put at the end.
* `std::shared_ptr<Tool>` is `Option Nat`: `none` is the null pointer, `some a` the address
  `a` of an object of the heap.  The heap is the list of the allocated `Local_Tool` objects
  (the only concrete variant of the abstract `Tool`), the address being the index.
* Dereferencing a pointer that holds no object is undefined behaviour and yields `none`.
* The loop of `erase_arg_val` may run forever; it is modelled with fuel, `none` meaning
  that the fuel ran out.
-/

namespace Tools

/-! ## Tool -/

/-- The class `Tool`: the recognised arguments with the values used before. -/
structure Tool where
  /-- The field `p_args`: `none` when the argument is not a key of the map. -/
  p_args : String → Option (List String)

/-- The assignment `p_args[arg] = hist` on the map itself. -/
def args_set (m : String → Option (List String)) (arg : String) (hist : List String) :
    String → Option (List String) :=
  fun k => if k = arg then some hist else m k

/-- The removal of key `arg` from the map itself. -/
def args_erase (m : String → Option (List String)) (arg : String) :
    String → Option (List String) :=
  fun k => if k = arg then none else m k

/-- The expression `p_args[arg]` of `std::unordered_map`: a key that is absent is first
inserted with the empty vector; the result is the map afterwards. -/
def Tool.index (t : Tool) (arg : String) : Tool :=
  match t.p_args arg with
  | some _ => t
  | none => { p_args := args_set t.p_args arg [] }

/-- The vector that `p_args[arg]` refers to, once `Tool.index` has run. -/
def Tool.at (t : Tool) (arg : String) : List String :=
  ((t.index arg).p_args arg).getD []

/-- The constructor `Tool()`. -/
def Tool.ctor : Tool := { p_args := fun _ => none }

/-- The constructor `Tool(args)`: `for (auto& arg : args) p_args[arg];`. -/
def Tool.ctor_args (args : List String) : Tool :=
  args.foldl (fun t arg => t.index arg) Tool.ctor

/-- The method `Tool::add_arg`, lines 58-63: the returned flag and the tool afterwards. -/
def Tool.add_arg (t : Tool) (arg : String) : Bool × Tool :=
  if (t.p_args arg).isSome then (false, t)
  else (true, t.index arg)

/-- The method `Tool::add_arg_val(arg, val)`, lines 66-71.  Line 68 reads
`if (p_args.find(arg) != p_args.end()) return false;`, so the early return is taken when
the argument IS a key; otherwise `p_args[arg].emplace_back(val)` runs. -/
def Tool.add_arg_val (t : Tool) (arg val : String) : Bool × Tool :=
  if (t.p_args arg).isSome then (false, t)
  else (true, { p_args := args_set (t.index arg).p_args arg (t.at arg ++ [val]) })

/-- The method `Tool::add_arg_val(arg, vals)`, lines 74-77: one call for each value. -/
def Tool.add_arg_vals (t : Tool) (arg : String) (vals : List String) : Tool :=
  vals.foldl (fun t val => (t.add_arg_val arg val).2) t

/-- The method `Tool::erase_arg`, lines 80-85. -/
def Tool.erase_arg (t : Tool) (arg : String) : Tool :=
  match t.p_args arg with
  | none => t
  | some _ => { p_args := args_erase t.p_args arg }

/-- The loop of `Tool::erase_arg_val`, lines 93-100, on the vector `list` with the iterator
`it` as an index.  The body never advances `it`.  `none`: the fuel ran out. -/
def erase_arg_val_loop : Nat → List String → Nat → String → Option (List String)
  | 0, _, _, _ => none
  | fuel + 1, list, it, val =>
    if h : it < list.length then
      if val = list[it] then some (list.eraseIdx it)
      else erase_arg_val_loop fuel list it val
    else some list

/-- The method `Tool::erase_arg_val`, lines 88-101, run with the given fuel. -/
def Tool.erase_arg_val (fuel : Nat) (t : Tool) (arg val : String) : Option Tool :=
  if (t.p_args arg).isNone then some t
  else
    match erase_arg_val_loop fuel (t.at arg) 0 val with
    | none => none
    | some list => some { p_args := args_set (t.index arg).p_args arg list }

/-! ## Local_Tool -/

/-- The class `Local_Tool`: a `Tool` with the path of the program. -/
structure Local_Tool extends Tool where
  /-- The field `p_path`. -/
  p_path : String

/-- The constructor `Local_Tool(p, args)`. -/
def Local_Tool.ctor (p : String) (args : List String) : Local_Tool :=
  { toTool := Tool.ctor_args args, p_path := p }

/-- The constructor `Local_Tool(p)`. -/
def Local_Tool.ctor_path (p : String) : Local_Tool :=
  { toTool := Tool.ctor, p_path := p }

/-- The method `Local_Tool::is_local`. -/
def Local_Tool.is_local (_t : Local_Tool) : Bool := true

/-- The method `Local_Tool::get_path`. -/
def Local_Tool.get_path (t : Local_Tool) : String := t.p_path

/-- The method `Local_Tool::set_path`. -/
def Local_Tool.set_path (t : Local_Tool) (p : String) : Local_Tool := { t with p_path := p }

/-- The operator `Local_Tool::operator==`, lines 148-152; every object of the heap is a
`Local_Tool`, so the `dynamic_cast` succeeds. -/
def Local_Tool.eq (t other : Local_Tool) : Bool := decide (t.p_path = other.p_path)

/-! ## The heap of shared tools -/

/-- A `std::shared_ptr<Tool>`: `none` is the null pointer, `some a` an address. -/
abbrev Ptr := Option Nat

/-- The objects that shared pointers refer to; the address is the index. -/
abbrev Heap := List Local_Tool

/-- The function `std::make_shared<Local_Tool>(t)`: a copy of `t` at a fresh address. -/
def make_shared (heap : Heap) (t : Local_Tool) : Ptr × Heap :=
  (some heap.length, heap ++ [t])

/-- The object that a pointer refers to, if any. -/
def deref (heap : Heap) (ptr : Ptr) : Option Local_Tool :=
  match ptr with
  | none => none
  | some a => heap[a]?

/-- The call `ptr->add_arg_val(arg, val)`: the returned flag and the heap afterwards, or
`none` when `ptr` refers to no object. -/
def ptr_add_arg_val (heap : Heap) (ptr : Ptr) (arg val : String) : Option (Bool × Heap) :=
  match ptr with
  | none => none
  | some a =>
    match heap[a]? with
    | none => none
    | some obj =>
      let r := obj.toTool.add_arg_val arg val
      some (r.1, heap.set a { obj with toTool := r.2 })

/-! ## Maps that are iterated -/

/-- The call `m.find(key)` on an association list: the value bound to `key`, if any. -/
def map_find {β : Type} (m : List (String × β)) (key : String) : Option β :=
  m.lookup key

/-- The assignment `m[key] = v`: the binding of a present key is overwritten in place, an
absent key is added. -/
def map_assign {β : Type} (m : List (String × β)) (key : String) (v : β) :
    List (String × β) :=
  if (map_find m key).isSome then m.map (fun kv => if kv.1 = key then (kv.1, v) else kv)
  else m ++ [(key, v)]

/-! ## Tool_Registry -/

/-- The class `Tool_Registry`. -/
structure Tool_Registry where
  /-- The field `p_map`, in iteration order. -/
  p_map : List (String × Ptr)

/-- The constructor `Tool_Registry()`: the state of the single instance at first use. -/
def Tool_Registry.ctor : Tool_Registry := { p_map := [] }

/-- The method `Tool_Registry::insert`, lines 168-173. -/
def Tool_Registry.insert (reg : Tool_Registry) (key : String) (ptr : Ptr) :
    Bool × Tool_Registry :=
  if (map_find reg.p_map key).isSome then (false, reg)
  else (true, { p_map := map_assign reg.p_map key ptr })

/-- The method `Tool_Registry::get_entries`. -/
def Tool_Registry.get_entries (reg : Tool_Registry) : List (String × Ptr) := reg.p_map

/-- The method `Tool_Registry::contains`, lines 186-189. -/
def Tool_Registry.contains (reg : Tool_Registry) (key : String) : Bool :=
  (map_find reg.p_map key).isSome

/-- The method `Tool_Registry::get_tool`, lines 192-198.  `debug` tells whether `_DEBUG` is
defined; the exception is `Except.error` with its message.  `return p_map[key]` adds an
absent key bound to the null pointer. -/
def Tool_Registry.get_tool (debug : Bool) (reg : Tool_Registry) (key : String) :
    Except String (Ptr × Tool_Registry) :=
  if debug && !reg.contains key then Except.error "key is not registered"
  else
    match map_find reg.p_map key with
    | some ptr => Except.ok (ptr, reg)
    | none => Except.ok (none, { p_map := reg.p_map ++ [(key, none)] })

/-- The operator `Tool_Registry::operator[]`, lines 201-204. -/
def Tool_Registry.operator_index (debug : Bool) (reg : Tool_Registry) (key : String) :
    Except String (Ptr × Tool_Registry) :=
  reg.get_tool debug key

/-- The method `Tool_Registry::get_key`, lines 207-214: the key of the first entry, in
iteration order, whose pointer is `ptr`.  The loop only reads `p_map`. -/
def Tool_Registry.get_key (reg : Tool_Registry) (ptr : Ptr) : Except String String :=
  match reg.p_map.find? (fun kp => decide (kp.2 = ptr)) with
  | some kp => Except.ok kp.1
  | none => Except.error "tool not registered"

/-! ## Tool chains -/

/-- The struct `Tool_Chain_Entry`. -/
structure Tool_Chain_Entry where
  /-- The field `tool`. -/
  tool : Ptr
  /-- The field `launch_args`, in iteration order. -/
  launch_args : List (String × String)

/-- The constructor `Tool_Chain_Entry(tl)`. -/
def Tool_Chain_Entry.ctor (tl : Ptr) : Tool_Chain_Entry := { tool := tl, launch_args := [] }

/-- The statement `e.launch_args[arg] = val`. -/
def Tool_Chain_Entry.set_launch_arg (e : Tool_Chain_Entry) (arg val : String) :
    Tool_Chain_Entry :=
  { e with launch_args := map_assign e.launch_args arg val }

/-- The struct `Tool_Chain`. -/
structure Tool_Chain where
  /-- The field `entries`. -/
  entries : List Tool_Chain_Entry
  /-- The field `description`. -/
  description : String

/-- The class `Tool_Chain_Registry`. -/
structure Tool_Chain_Registry where
  /-- The field `p_tool_chains`. -/
  p_tool_chains : List Tool_Chain

/-- The constructor `Tool_Chain_Registry()`. -/
def Tool_Chain_Registry.ctor : Tool_Chain_Registry := { p_tool_chains := [] }

/-- The method `Tool_Chain_Registry::get_entries`. -/
def Tool_Chain_Registry.get_entries (reg : Tool_Chain_Registry) : List Tool_Chain :=
  reg.p_tool_chains

/-- The character `char()` that `std::string::resize(n)` appends. -/
def padding : Char := Char.ofNat 0

/-- The method `std::string::resize(n)`: the first `n` characters, then padding up to
length `n`. -/
def resize (s : String) (n : Nat) : String :=
  String.mk (s.data.take n ++ List.replicate (n - s.data.length) padding)

/-- The inner loop of lines 261-262 for one entry: `tool->add_arg_val(arg, val)` for each
pair of its `launch_args`. -/
def update_arg_vals (heap : Heap) (tool : Ptr) : List (String × String) → Option Heap
  | [] => some heap
  | (arg, val) :: rest =>
    match ptr_add_arg_val heap tool arg val with
    | none => none
    | some r => update_arg_vals r.2 tool rest

/-- The loop of lines 260-262 over the entries of the chain. -/
def update_used_values (heap : Heap) : List Tool_Chain_Entry → Option Heap
  | [] => some heap
  | tc_entry :: rest =>
    match update_arg_vals heap tc_entry.tool tc_entry.launch_args with
    | none => none
    | some heap1 => update_used_values heap1 rest

/-- The loop of lines 271-274: `it_map->second.resize(256)` for each pair. -/
def resize_launch_args (launch_args : List (String × String)) : List (String × String) :=
  launch_args.map (fun kv => (kv.1, resize kv.2 256))

/-- The lines 268-275 on the stored copy `vec_tc`. -/
def resize_buffers (vec_tc : Tool_Chain) : Tool_Chain :=
  { entries := vec_tc.entries.map
      (fun e => { e with launch_args := resize_launch_args e.launch_args }),
    description := resize vec_tc.description 256 }

/-- The method `Tool_Chain_Registry::insert_tool_chain`, lines 257-276: the heap and the
registry afterwards; `none` when an entry with launch arguments refers to no object. -/
def Tool_Chain_Registry.insert_tool_chain (heap : Heap) (reg : Tool_Chain_Registry)
    (tc : Tool_Chain) : Option (Heap × Tool_Chain_Registry) :=
  match update_used_values heap tc.entries with
  | none => none
  | some heap1 =>
    let chains := reg.p_tool_chains ++ [tc]
    some (heap1, { p_tool_chains := List.modify resize_buffers (chains.length - 1) chains })

/-! ## The scenario of `App.cpp` -/

/-- The state of the program: the heap and the two singletons. -/
structure State where
  /-- The shared tools. -/
  heap : Heap
  /-- The instance of `Tool_Registry`. -/
  tools : Tool_Registry
  /-- The instance of `Tool_Chain_Registry`. -/
  chains : Tool_Chain_Registry

/-- The function `main` of `App.cpp`, lines 6-27, up to the start of the GUI: the state
after the chain was inserted. -/
def main : Option State :=
  let tool := Local_Tool.ctor "test tool" ["a1", "a2"]
  let a := make_shared [] tool
  let ptr := a.1
  let r := Tool_Registry.ctor.insert "test" ptr
  let tce := (Tool_Chain_Entry.ctor ptr).set_launch_arg "help" "yeet"
  let ents := [tce]
  let tool1 := Local_Tool.ctor "test tool" ["a11", "a21"]
  let a1 := make_shared a.2 tool1
  let ptr1 := a1.1
  let r1 := r.2.insert "test1" ptr1
  let tce1 := (Tool_Chain_Entry.ctor ptr1).set_launch_arg "help1" "yeet1"
  let ents := (ents ++ [tce1]) ++ [tce1]
  match Tool_Chain_Registry.ctor.insert_tool_chain a1.2
      { entries := ents, description := "test1" } with
  | none => none
  | some s => some { heap := s.1, tools := r1.2, chains := s.2 }

/-- The history that the object at address `a` of an optional heap holds for `arg`:
the outer `none` when there is no such heap or object, the inner one when the argument
is not recognised. -/
def history_at (heap : Option Heap) (a : Nat) (arg : String) : Option (Option (List String)) :=
  match heap with
  | none => none
  | some h =>
    match h[a]? with
    | none => none
    | some obj => some (obj.p_args arg)

/-! ## The padding convention, as the specification words it -/

/-- Modelled from the spec: the trimming of trailing padding that section 4.5 asks of every
consumer of a stored string; the source has no such function. -/
def trim_padding (s : String) : String :=
  String.mk (s.data.rdropWhile (fun c => decide (c = padding)))

/-- Modelled from the spec: a string that fits a buffer of 256 characters and does not end
in padding, so that trimming can recover it (section 4.5). -/
abbrev fits_buffer (s : String) : Prop :=
  s.data.length ≤ 256 ∧ s.data.getLast? ≠ some padding

/-- Modelled from the spec: the chain a consumer sees, every stored string trimmed of its
trailing padding (section 4.5). -/
def trim_chain (tc : Tool_Chain) : Tool_Chain :=
  { entries := tc.entries.map
      (fun e => { e with launch_args := e.launch_args.map (fun kv => (kv.1, trim_padding kv.2)) }),
    description := trim_padding tc.description }

/-- A description of 257 characters. -/
def long_description : String := String.mk (List.replicate 257 'a')

/-- A value that ends in the padding character. -/
def padded_value : String := String.mk ['a', padding]

/-! ## Inputs of the examples -/

/-- The tool of `App.cpp`, line 6, as a `Tool`. -/
def tool_a1_a2 : Tool := Tool.ctor_args ["a1", "a2"]

/-- A heap with one tool that recognises the argument `x`, with empty history. -/
def heap_x : Heap := (make_shared [] (Local_Tool.ctor "/bin/a" ["x"])).2

/-- An entry on the tool of `heap_x` with `launch_args = {x -> v}`. -/
def entry_x_v : Tool_Chain_Entry := (Tool_Chain_Entry.ctor (some 0)).set_launch_arg "x" "v"

/-- A tool whose history for `x` is `["a"]`: `Local_Tool("/bin/a")`, then
`add_arg_val("x", "a")`. -/
def tool_x_a : Tool := ((Local_Tool.ctor_path "/bin/a").toTool.add_arg_val "x" "a").2

/-- The registry of `App.cpp` after the two calls of `insert`, lines 8 and 16. -/
def app_registry : Tool_Registry :=
  ((Tool_Registry.ctor.insert "test" (some 0)).2.insert "test1" (some 1)).2

/-- The heap of `App.cpp` after the two calls of `make_shared`, lines 7 and 15. -/
def app_heap : Heap :=
  (make_shared (make_shared [] (Local_Tool.ctor "test tool" ["a1", "a2"])).2
    (Local_Tool.ctor "test tool" ["a11", "a21"])).2

/-! ## Sequences of calls and further predicates -/

/-- A run of `insert_tool_chain` for each chain of a list, in order: the heap and the
registry afterwards, or `none` when one of the calls refers to no object. -/
def insert_tool_chains (heap : Heap) (reg : Tool_Chain_Registry) :
    List Tool_Chain → Option (Heap × Tool_Chain_Registry)
  | [] => some (heap, reg)
  | tc :: rest =>
    match reg.insert_tool_chain heap tc with
    | none => none
    | some s => insert_tool_chains s.1 s.2 rest

/-- Every stored description and every stored launch value has exactly 256 characters. -/
def all_capacity_256 (reg : Tool_Chain_Registry) : Prop :=
  ∀ tc ∈ reg.get_entries, tc.description.length = 256 ∧
    ∀ e ∈ tc.entries, ∀ kv ∈ e.launch_args, kv.2.length = 256

/-- The tool and the argument names of an entry, in iteration order. -/
def Tool_Chain_Entry.shape (e : Tool_Chain_Entry) : Ptr × List String :=
  (e.tool, e.launch_args.map (fun kv => kv.1))

/-- The first `Local_Tool` of `App.cpp`, line 6. -/
def app_tool : Local_Tool := Local_Tool.ctor "test tool" ["a1", "a2"]

/-- The second `Local_Tool` of `App.cpp`, line 14. -/
def app_tool1 : Local_Tool := Local_Tool.ctor "test tool" ["a11", "a21"]

/-- The chain of `App.cpp`, lines 9-27. -/
def app_chain : Tool_Chain :=
  { entries :=
      [(Tool_Chain_Entry.ctor (some 0)).set_launch_arg "help" "yeet",
       (Tool_Chain_Entry.ctor (some 1)).set_launch_arg "help1" "yeet1",
       (Tool_Chain_Entry.ctor (some 1)).set_launch_arg "help1" "yeet1"],
    description := "test1" }

/-- Every recognised argument of the tool has at most one value in its history. -/
def histories_short (t : Tool) : Prop :=
  ∀ arg hist, t.p_args arg = some hist → hist.length ≤ 1

/-- A call `ptr->f(..)` of a method `f` of `Tool` that changes the tool: the heap
afterwards, or `none` when `ptr` refers to no object or the method does not return. -/
def ptr_call (heap : Heap) (ptr : Ptr) (f : Tool → Option Tool) : Option Heap :=
  match ptr with
  | none => none
  | some a =>
    match heap[a]? with
    | none => none
    | some obj =>
      match f obj.toTool with
      | none => none
      | some t => some (heap.set a { obj with toTool := t })

/-- The calls by which a caller builds and changes tools: the two constructors of
`Local_Tool` (the object put on the heap by `make_shared`), the methods of `Tool` that
change `p_args`, and `Tool_Chain_Registry::insert_tool_chain`. -/
inductive Call where
  | Local_Tool (p : String) (args : List String)
  | Local_Tool_path (p : String)
  | add_arg (ptr : Ptr) (arg : String)
  | add_arg_val (ptr : Ptr) (arg val : String)
  | add_arg_vals (ptr : Ptr) (arg : String) (vals : List String)
  | erase_arg (ptr : Ptr) (arg : String)
  | erase_arg_val (fuel : Nat) (ptr : Ptr) (arg val : String)
  | insert_tool_chain (tc : Tool_Chain)

/-- One call on the heap and the chain registry; `none` when the call does not return or
refers to no object. -/
def Call.run (s : Heap × Tool_Chain_Registry) : Call → Option (Heap × Tool_Chain_Registry)
  | Call.Local_Tool p args => some ((make_shared s.1 (Local_Tool.ctor p args)).2, s.2)
  | Call.Local_Tool_path p => some ((make_shared s.1 (Local_Tool.ctor_path p)).2, s.2)
  | Call.add_arg ptr arg =>
    (ptr_call s.1 ptr (fun t => some (t.add_arg arg).2)).map (fun h => (h, s.2))
  | Call.add_arg_val ptr arg val =>
    (ptr_call s.1 ptr (fun t => some (t.add_arg_val arg val).2)).map (fun h => (h, s.2))
  | Call.add_arg_vals ptr arg vals =>
    (ptr_call s.1 ptr (fun t => some (t.add_arg_vals arg vals))).map (fun h => (h, s.2))
  | Call.erase_arg ptr arg =>
    (ptr_call s.1 ptr (fun t => some (t.erase_arg arg))).map (fun h => (h, s.2))
  | Call.erase_arg_val fuel ptr arg val =>
    (ptr_call s.1 ptr (fun t => t.erase_arg_val fuel arg val)).map (fun h => (h, s.2))
  | Call.insert_tool_chain tc => s.2.insert_tool_chain s.1 tc

/-- A sequence of calls, from the first to the last. -/
def run_calls (s : Heap × Tool_Chain_Registry) : List Call → Option (Heap × Tool_Chain_Registry)
  | [] => some s
  | c :: rest =>
    match c.run s with
    | none => none
    | some s1 => run_calls s1 rest

/-- A sequence of calls that uses every kind of call once and returns. -/
def sample_calls : List Call :=
  [Call.Local_Tool "/bin/a" ["x"], Call.Local_Tool_path "/bin/b",
   Call.add_arg (some 1) "y", Call.add_arg_val (some 1) "z" "v",
   Call.add_arg_vals (some 1) "w" ["v1", "v2"], Call.erase_arg (some 0) "x",
   Call.erase_arg_val 1 (some 1) "z" "v",
   Call.insert_tool_chain { entries := [entry_x_v, entry_x_v], description := "d" }]

/-- The inner loop of lines 261-262 on the tool itself: `add_arg_val(arg, val)` for each
pair, in the order of the list. -/
def Tool.add_launch_args (t : Tool) (launch_args : List (String × String)) : Tool :=
  launch_args.foldl (fun t kv => (t.add_arg_val kv.1 kv.2).2) t

/-- Two entries hold the same tool pointer and the same `launch_args` map, the pairs
possibly listed (iterated) in another order. -/
def Tool_Chain_Entry.same_map (e e1 : Tool_Chain_Entry) : Prop :=
  e.tool = e1.tool ∧ e.launch_args.Perm e1.launch_args

/-- Two chains are the same chain up to the iteration order of the `launch_args` of each
entry: same description, same entries in the same order. -/
def Tool_Chain.same_maps (c c1 : Tool_Chain) : Prop :=
  c.description = c1.description ∧ List.Forall₂ Tool_Chain_Entry.same_map c.entries c1.entries

/-- A heap with one tool, built by `Local_Tool("/bin/a")`, that recognises no argument. -/
def heap_none : Heap := (make_shared [] (Local_Tool.ctor_path "/bin/a")).2

/-- An entry on the tool at address 0 with `launch_args = {x -> w}`. -/
def entry_x_w : Tool_Chain_Entry := (Tool_Chain_Entry.ctor (some 0)).set_launch_arg "x" "w"

/-- An entry on the tool at address 0 with `launch_args = {x -> v, y -> w}`. -/
def entry_xy : Tool_Chain_Entry :=
  ((Tool_Chain_Entry.ctor (some 0)).set_launch_arg "x" "v").set_launch_arg "y" "w"

/-- The entry `entry_xy` with its pairs listed in the other order. -/
def entry_yx : Tool_Chain_Entry :=
  ((Tool_Chain_Entry.ctor (some 0)).set_launch_arg "y" "w").set_launch_arg "x" "v"

/-! ## Tool: basic facts -/

theorem Tool.add_arg_val_of_isSome (t : Tool) (arg val : String)
    (h : (t.p_args arg).isSome = true) : t.add_arg_val arg val = (false, t) := by
  simp [Tool.add_arg_val, h]

theorem Tool.add_arg_val_of_none (t : Tool) (arg val : String) (h : t.p_args arg = none) :
    t.add_arg_val arg val = (true, { p_args := args_set t.p_args arg [val] }) := by
  have h1 : t.index arg = { p_args := args_set t.p_args arg [] } := by
    simp [Tool.index, h]
  have h2 : t.at arg = [] := by
    simp [Tool.at, h1, args_set]
  simp only [Tool.add_arg_val, h, h1, h2, Option.isSome_none, Bool.false_eq_true, if_false,
    List.nil_append]
  congr 2
  funext k
  by_cases hk : k = arg <;> simp [args_set, hk]

theorem erase_arg_val_loop_stuck (list : List String) (x val : String)
    (hx : list[0]? = some x) (hne : val ≠ x) (fuel : Nat) :
    erase_arg_val_loop fuel list 0 val = none := by
  induction fuel with
  | zero => rfl
  | succ n ih =>
    cases list with
    | nil => simp at hx
    | cons y ys =>
      simp only [List.getElem?_cons_zero, Option.some.injEq] at hx
      subst hx
      simp [erase_arg_val_loop, hne, ih]

/-! ## Maps -/

theorem lookup_overwrite_self {β : Type} (key : String) (v : β) :
    ∀ m : List (String × β), (List.lookup key m).isSome = true →
    List.lookup key (m.map (fun kv => if kv.1 = key then (kv.1, v) else kv)) = some v := by
  intro m
  induction m with
  | nil => intro h; simp at h
  | cons kv rest ih =>
    intro h
    obtain ⟨k, b⟩ := kv
    by_cases hk : k = key
    · subst hk
      simp [List.lookup_cons]
    · have hk2 : (key == k) = false := by
        rw [beq_eq_false_iff_ne]
        exact fun h => hk h.symm
      simp only [List.lookup_cons, hk2] at h
      simp only [List.map_cons, hk, if_false, List.lookup_cons, hk2]
      exact ih h

theorem lookup_overwrite_ne {β : Type} (key k : String) (v : β) (hne : k ≠ key) :
    ∀ m : List (String × β),
    List.lookup k (m.map (fun kv => if kv.1 = key then (kv.1, v) else kv)) = List.lookup k m := by
  intro m
  induction m with
  | nil => rfl
  | cons kv rest ih =>
    obtain ⟨k1, b⟩ := kv
    by_cases hk : k1 = key
    · subst hk
      have hk2 : (k == k1) = false := by
        rw [beq_eq_false_iff_ne]
        exact hne
      simp only [List.map_cons, if_true, List.lookup_cons, hk2]
      exact ih
    · simp only [List.map_cons, hk, if_false, List.lookup_cons]
      cases (k == k1)
      · exact ih
      · rfl

theorem map_find_assign_self {β : Type} (m : List (String × β)) (key : String) (v : β) :
    map_find (map_assign m key v) key = some v := by
  unfold map_assign
  split
  · rename_i h
    exact lookup_overwrite_self key v m h
  · rename_i h
    have h0 : List.lookup key m = none := by
      cases hl : List.lookup key m with
      | none => rfl
      | some b => simp [map_find, hl] at h
    simp [map_find, List.lookup_append, h0]

theorem map_find_assign_ne {β : Type} (m : List (String × β)) (key k : String) (v : β)
    (hne : k ≠ key) : map_find (map_assign m key v) k = map_find m k := by
  unfold map_assign
  split
  · exact lookup_overwrite_ne key k v hne m
  · have hk2 : (k == key) = false := by
      rw [beq_eq_false_iff_ne]
      exact hne
    have h0 : List.lookup k [(key, v)] = none := by
      simp [List.lookup_cons, hk2]
    simp [map_find, List.lookup_append, h0]

/-! ## Strings -/

theorem rdropWhile_append_replicate {α : Type} (p : α → Bool) (l : List α) (a : α)
    (ha : p a = true) (n : Nat) :
    (l ++ List.replicate n a).rdropWhile p = l.rdropWhile p := by
  induction n with
  | zero => simp
  | succ n ih =>
    rw [List.replicate_succ', ← List.append_assoc, List.rdropWhile_concat_pos _ _ _ ha, ih]

theorem trim_padding_resize (s : String) (n : Nat) :
    trim_padding (resize s n) = trim_padding (String.mk (s.data.take n)) := by
  simp only [trim_padding, resize]
  congr 1
  exact rdropWhile_append_replicate _ _ padding (by simp) _

theorem length_trim_padding_resize_le (s : String) (n : Nat) :
    (trim_padding (resize s n)).data.length ≤ n := by
  rw [trim_padding_resize]
  show (List.rdropWhile _ (s.data.take n)).length ≤ n
  exact le_trans (List.IsPrefix.length_le (List.rdropWhile_prefix _ _))
    (List.length_take_le n s.data)

theorem trim_padding_resize_of_fits (s : String) (h : fits_buffer s) :
    trim_padding (resize s 256) = s := by
  rw [trim_padding_resize, List.take_of_length_le h.1]
  show String.mk (s.data.rdropWhile _) = s
  have : s.data.rdropWhile (fun c => decide (c = padding)) = s.data := by
    rw [List.rdropWhile_eq_self_iff]
    intro hl hp
    apply h.2
    rw [List.getLast?_eq_getLast _ hl]
    simpa using hp
  rw [this]

/-! ## Tool_Registry: basic facts -/

theorem Tool_Registry.insert_of_absent (reg : Tool_Registry) (key : String) (ptr : Ptr)
    (h : (map_find reg.p_map key).isSome = false) :
    reg.insert key ptr = (true, { p_map := map_assign reg.p_map key ptr }) := by
  simp [Tool_Registry.insert, h]

theorem Tool_Registry.insert_of_present (reg : Tool_Registry) (key : String) (ptr : Ptr)
    (h : (map_find reg.p_map key).isSome = true) : reg.insert key ptr = (false, reg) := by
  simp [Tool_Registry.insert, h]

theorem Tool_Registry.absent_of_insert (reg : Tool_Registry) (key : String) (ptr : Ptr)
    (h : (reg.insert key ptr).1 = true) : (map_find reg.p_map key).isSome = false := by
  cases hs : (map_find reg.p_map key).isSome
  · rfl
  · rw [Tool_Registry.insert_of_present reg key ptr hs] at h
    cases h

/-! ## insert_tool_chain: the stored chain and the run of the loops -/

theorem resize_buffers_description (c : Tool_Chain) :
    (resize_buffers c).description = resize c.description 256 := rfl

theorem modify_last_append {α : Type} (f : α → α) (l : List α) (x : α) :
    List.modify f ((l ++ [x]).length - 1) (l ++ [x]) = l ++ [f x] := by
  induction l with
  | nil => rfl
  | cons y ys ih =>
    have hlen : ((y :: ys) ++ [x]).length - 1 = ((ys ++ [x]).length - 1) + 1 := by
      simp
    rw [hlen]
    simp only [List.cons_append, List.modify_succ_cons]
    rw [ih]

theorem ptr_add_arg_val_live (heap : Heap) (a : Nat) (arg val : String)
    (ha : a < heap.length) :
    ∃ r, ptr_add_arg_val heap (some a) arg val = some r ∧ r.2.length = heap.length := by
  simp [ptr_add_arg_val, List.getElem?_eq_getElem ha]

theorem update_arg_vals_live (a : Nat) (launch_args : List (String × String)) :
    ∀ heap : Heap, a < heap.length →
    ∃ heap1, update_arg_vals heap (some a) launch_args = some heap1 ∧
      heap1.length = heap.length := by
  induction launch_args with
  | nil => intro heap _; exact ⟨heap, rfl, rfl⟩
  | cons kv rest ih =>
    intro heap ha
    obtain ⟨arg, val⟩ := kv
    obtain ⟨r, hr, hlen⟩ := ptr_add_arg_val_live heap a arg val ha
    obtain ⟨heap1, h1, hlen1⟩ := ih r.2 (by omega)
    exact ⟨heap1, by simp [update_arg_vals, hr, h1], by omega⟩

theorem update_used_values_live (entries : List Tool_Chain_Entry) :
    ∀ heap : Heap,
    (∀ e ∈ entries, e.launch_args ≠ [] → (deref heap e.tool).isSome = true) →
    ∃ heap1, update_used_values heap entries = some heap1 ∧ heap1.length = heap.length := by
  induction entries with
  | nil => intro heap _; exact ⟨heap, rfl, rfl⟩
  | cons e rest ih =>
    intro heap hlive
    have hstep : ∃ heap1, update_arg_vals heap e.tool e.launch_args = some heap1 ∧
        heap1.length = heap.length := by
      by_cases hla : e.launch_args = []
      · exact ⟨heap, by simp [hla, update_arg_vals], rfl⟩
      · have hd := hlive e (List.mem_cons_self _ _) hla
        cases ht : e.tool with
        | none => simp [deref, ht] at hd
        | some a =>
          have ha : a < heap.length := by
            by_contra hge
            simp [deref, ht, List.getElem?_eq_none (Nat.le_of_not_lt hge)] at hd
          exact update_arg_vals_live a e.launch_args heap ha
    obtain ⟨heap1, h1, hlen1⟩ := hstep
    have hlive1 : ∀ e1 ∈ rest, e1.launch_args ≠ [] → (deref heap1 e1.tool).isSome = true := by
      intro e1 he1 hla
      have hd := hlive e1 (List.mem_cons_of_mem _ he1) hla
      cases ht : e1.tool with
      | none => simp [deref, ht] at hd
      | some a =>
        have ha : a < heap.length := by
          by_contra hge
          simp [deref, ht, List.getElem?_eq_none (Nat.le_of_not_lt hge)] at hd
        simp [deref, List.getElem?_eq_getElem (show a < heap1.length by omega)]
    obtain ⟨heap2, h2, hlen2⟩ := ih heap1 hlive1
    exact ⟨heap2, by simp [update_used_values, h1, h2], by omega⟩

theorem trim_chain_resize_buffers (c : Tool_Chain) (hdesc : fits_buffer c.description)
    (hvals : ∀ e ∈ c.entries, ∀ kv ∈ e.launch_args, fits_buffer kv.2) :
    trim_chain (resize_buffers c) = c := by
  obtain ⟨entries, description⟩ := c
  simp only [trim_chain, resize_buffers, resize_launch_args, List.map_map]
  congr 1
  · conv_rhs => rw [← List.map_id entries]
    apply List.map_congr_left
    intro e he
    obtain ⟨tool, launch_args⟩ := e
    simp only [Function.comp, id, List.map_map]
    congr 1
    conv_rhs => rw [← List.map_id launch_args]
    apply List.map_congr_left
    intro kv hkv
    simp only [Function.comp, id]
    rw [trim_padding_resize_of_fits kv.2 (hvals _ he kv hkv)]
  · exact trim_padding_resize_of_fits _ hdesc

/-! ## Claims -/

/-- C1 (code bug, line 68): on the tool of `App.cpp` with arguments `a1`, `a2`,
`add_arg_val("a1", "v")` returns false and leaves the history of the recognised `a1` empty,
while `add_arg_val("help", "yeet")` returns true and makes the unrecognised `help` a key
with history `["yeet"]`. -/
theorem add_arg_val_rejects_recognised :
    (tool_a1_a2.add_arg_val "a1" "v").1 = false ∧
    (tool_a1_a2.add_arg_val "a1" "v").2.p_args "a1" = some [] ∧
    tool_a1_a2.p_args "help" = none ∧
    (tool_a1_a2.add_arg_val "help" "yeet").1 = true ∧
    (tool_a1_a2.add_arg_val "help" "yeet").2.p_args "help" = some ["yeet"] := by
  decide

/-- C2 (code bug, line 68): a chain whose single entry sets `x -> v` on a tool that
recognises `x` is inserted, and the history of `x` is still empty: `v` is not recorded. -/
theorem insert_tool_chain_drops_recognised :
    history_at (some heap_x) 0 "x" = some (some []) ∧
    history_at ((Tool_Chain_Registry.ctor.insert_tool_chain heap_x
      { entries := [entry_x_v], description := "d" }).map (fun s => s.1)) 0 "x"
      = some (some []) := by
  decide

/-- C3 (code bug, line 68): in `main` of `App.cpp` the first tool is built with the
arguments `a1`, `a2` only, and after `insert_tool_chain` it has the argument `help` with
history `["yeet"]`; the second tool likewise has `help1`. -/
theorem main_creates_help :
    ((Local_Tool.ctor "test tool" ["a1", "a2"]).p_args "help" = none) ∧
    history_at (main.map (fun s => s.heap)) 0 "help" = some (some ["yeet"]) ∧
    history_at (main.map (fun s => s.heap)) 1 "help1" = some (some ["yeet1"]) := by
  decide

/-- C4, as stated, fails: a description of 257 characters is stored cut to 256, and a
launch value that ends in the padding character loses it when trimmed. -/
theorem padding_trim_not_original :
    (∃ stored, (Tool_Chain_Registry.ctor.insert_tool_chain []
        { entries := [], description := long_description }).map (fun s => s.2.get_entries)
        = some [stored] ∧
      trim_padding stored.description ≠ long_description) ∧
    (∃ stored, (Tool_Chain_Registry.ctor.insert_tool_chain heap_x
        { entries := [(Tool_Chain_Entry.ctor (some 0)).set_launch_arg "x" padded_value],
          description := "d" }).map (fun s => s.2.get_entries) = some [stored] ∧
      stored.entries.map (fun e => e.launch_args.map (fun kv => (kv.1, trim_padding kv.2)))
        = [[("x", "a")]] ∧ padded_value ≠ "a") := by
  refine ⟨⟨resize_buffers { entries := [], description := long_description }, rfl, ?_⟩,
    ⟨resize_buffers
      { entries := [(Tool_Chain_Entry.ctor (some 0)).set_launch_arg "x" padded_value],
        description := "d" }, rfl, by decide, by decide⟩⟩
  intro h
  have hle := length_trim_padding_resize_le long_description 256
  rw [resize_buffers_description] at h
  rw [h] at hle
  have h257 : long_description.data.length = 257 := List.length_replicate _ _
  omega

/-- C4, amended: when every entry with launch arguments refers to a tool object, and the
description and every launch value of the chain have at most 256 characters and do not end
in the padding character, `insert_tool_chain` appends one chain whose description and
launch values, trimmed of trailing padding, are those of the chain supplied. -/
theorem insert_tool_chain_trimmed_eq (heap : Heap) (reg : Tool_Chain_Registry)
    (c : Tool_Chain)
    (hlive : ∀ e ∈ c.entries, e.launch_args ≠ [] → (deref heap e.tool).isSome = true)
    (hdesc : fits_buffer c.description)
    (hvals : ∀ e ∈ c.entries, ∀ kv ∈ e.launch_args, fits_buffer kv.2) :
    ∃ heap1 stored, reg.insert_tool_chain heap c
        = some (heap1, { p_tool_chains := reg.p_tool_chains ++ [stored] }) ∧
      trim_chain stored = c := by
  obtain ⟨heap1, h1, _⟩ := update_used_values_live c.entries heap hlive
  refine ⟨heap1, resize_buffers c, ?_, trim_chain_resize_buffers c hdesc hvals⟩
  simp only [Tool_Chain_Registry.insert_tool_chain, h1]
  rw [modify_last_append]

/-- Witness of C4, amended: the chain with the single entry `x -> v` and description `d` on
the heap `heap_x`. -/
theorem insert_tool_chain_trimmed_eq_witness :
    fits_buffer "d" ∧ fits_buffer "v" ∧
    ∃ heap1 stored, Tool_Chain_Registry.ctor.insert_tool_chain heap_x
        { entries := [entry_x_v], description := "d" }
        = some (heap1, { p_tool_chains := Tool_Chain_Registry.ctor.p_tool_chains ++ [stored] }) ∧
      trim_chain stored = { entries := [entry_x_v], description := "d" } :=
  ⟨by decide, by decide,
    insert_tool_chain_trimmed_eq heap_x Tool_Chain_Registry.ctor
      { entries := [entry_x_v], description := "d" }
      (by intro e he _; simp at he; subst he; decide)
      (by decide)
      (by
        intro e he kv hkv
        simp at he
        subst he
        simp [entry_x_v, Tool_Chain_Entry.set_launch_arg, Tool_Chain_Entry.ctor, map_assign,
          map_find] at hkv
        subst hkv
        decide)⟩

/-- C5: `insert(key, ptr)` returns true exactly when the key was absent; then the registry
afterwards binds `key` to the pointer `ptr` itself and every other key as before; when it
returns false the registry is unchanged. -/
theorem Tool_Registry_insert_spec (reg : Tool_Registry) (key : String) (ptr : Ptr) :
    ((reg.insert key ptr).1 = true ↔ reg.contains key = false) ∧
    ((reg.insert key ptr).1 = true →
      map_find (reg.insert key ptr).2.p_map key = some ptr ∧
      ∀ k, k ≠ key → map_find (reg.insert key ptr).2.p_map k = map_find reg.p_map k) ∧
    ((reg.insert key ptr).1 = false → (reg.insert key ptr).2 = reg) := by
  cases h : (map_find reg.p_map key).isSome
  · rw [Tool_Registry.insert_of_absent reg key ptr h]
    refine ⟨by simp [Tool_Registry.contains, h], ⟨fun _ => ?_, fun hf => absurd hf (by simp)⟩⟩
    exact ⟨map_find_assign_self _ _ _, fun k hk => map_find_assign_ne _ _ _ _ hk⟩
  · rw [Tool_Registry.insert_of_present reg key ptr h]
    exact ⟨by simp [Tool_Registry.contains, h], ⟨fun hf => absurd hf (by simp), fun _ => rfl⟩⟩

/-- Witness of C5: the first `insert` of `App.cpp`, on the empty registry. -/
theorem Tool_Registry_insert_spec_witness :
    Tool_Registry.ctor.contains "test" = false ∧
    (Tool_Registry.ctor.insert "test" (some 0)).1 = true ∧
    map_find (Tool_Registry.ctor.insert "test" (some 0)).2.p_map "test" = some (some 0) :=
  have h := Tool_Registry_insert_spec Tool_Registry.ctor "test" (some 0)
  have ht : (Tool_Registry.ctor.insert "test" (some 0)).1 = true := h.1.2 (by decide)
  ⟨by decide, ht, (h.2.1 ht).1⟩

/-- C6: when `insert(K, t1)` succeeds, a following `insert(K, t2)` returns false and leaves
the registry as it was, `contains(K)` is true, and `get_tool(K)`, in the debug build and in
the other one, returns the pointer `t1` itself and leaves the registry as it was. -/
theorem Tool_Registry_insert_twice (debug : Bool) (R : Tool_Registry) (K : String)
    (t1 t2 : Ptr) (h : (R.insert K t1).1 = true) :
    ((R.insert K t1).2.insert K t2).1 = false ∧
    ((R.insert K t1).2.insert K t2).2 = (R.insert K t1).2 ∧
    ((R.insert K t1).2.insert K t2).2.contains K = true ∧
    ((R.insert K t1).2.insert K t2).2.get_tool debug K
      = Except.ok (t1, (R.insert K t1).2) := by
  have habs := Tool_Registry.absent_of_insert R K t1 h
  rw [Tool_Registry.insert_of_absent R K t1 habs]
  have hfind : map_find (map_assign R.p_map K t1) K = some t1 := map_find_assign_self _ _ _
  have h2 : Tool_Registry.insert { p_map := map_assign R.p_map K t1 } K t2
      = (false, { p_map := map_assign R.p_map K t1 }) :=
    Tool_Registry.insert_of_present _ K t2 (by simp [hfind])
  rw [h2]
  simp [Tool_Registry.contains, Tool_Registry.get_tool, hfind]

/-- Witness of C6: the key `test` inserted twice in the empty registry, debug build. -/
theorem Tool_Registry_insert_twice_witness :
    (Tool_Registry.ctor.insert "test" (some 0)).1 = true ∧
    ((Tool_Registry.ctor.insert "test" (some 0)).2.insert "test" (some 1)).1 = false ∧
    ((Tool_Registry.ctor.insert "test" (some 0)).2.insert "test" (some 1)).2.get_tool true "test"
      = Except.ok (some 0, (Tool_Registry.ctor.insert "test" (some 0)).2) :=
  have h := Tool_Registry_insert_twice true Tool_Registry.ctor "test" (some 0) (some 1)
    (by decide)
  ⟨by decide, h.1, h.2.2.2⟩

/-- C7: `add_arg(A)` on a tool that does not recognise `A` returns true, makes `A`
recognised with the empty history and keeps every other argument; on a tool that recognises
`A`, whatever its history, it returns false and leaves the tool as it was, in particular
right after a successful `add_arg(A)` and after `add_arg_val` recorded a value for `A`. -/
theorem Tool_add_arg_spec (t : Tool) (A : String) :
    (t.p_args A = none →
      (t.add_arg A).1 = true ∧ (t.add_arg A).2.p_args A = some [] ∧
      ∀ B, B ≠ A → (t.add_arg A).2.p_args B = t.p_args B) ∧
    (∀ hist, t.p_args A = some hist → t.add_arg A = (false, t)) ∧
    ((t.add_arg A).1 = true → (t.add_arg A).2.add_arg A = (false, (t.add_arg A).2)) ∧
    (∀ v, (t.add_arg_val A v).1 = true →
      (t.add_arg_val A v).2.add_arg A = (false, (t.add_arg_val A v).2)) := by
  have hnone : t.p_args A = none →
      t.add_arg A = (true, { p_args := args_set t.p_args A [] }) := by
    intro h
    simp [Tool.add_arg, Tool.index, h]
  have hsome : ∀ (u : Tool) (hist : List String), u.p_args A = some hist →
      u.add_arg A = (false, u) := by
    intro u hist h
    simp [Tool.add_arg, h]
  refine ⟨fun h => ?_, hsome t, fun h => ?_, fun v h => ?_⟩
  · rw [hnone h]
    refine ⟨rfl, by simp [args_set], fun B hB => by simp [args_set, hB]⟩
  · cases hA : t.p_args A with
    | some hist => rw [hsome t hist hA] at h; exact absurd h (by simp)
    | none =>
      rw [hnone hA]
      exact hsome _ [] (by simp [args_set])
  · cases hA : t.p_args A with
    | some hist =>
      rw [Tool.add_arg_val_of_isSome t A v (by simp [hA])] at h
      exact absurd h (by simp)
    | none =>
      rw [Tool.add_arg_val_of_none t A v hA]
      exact hsome _ [v] (by simp [args_set])

/-- Witness of C7: `add_arg` on the tool of `App.cpp` for the new name `help` and for the
recognised name `a1`. -/
theorem Tool_add_arg_spec_witness :
    tool_a1_a2.p_args "help" = none ∧
    (tool_a1_a2.add_arg "help").1 = true ∧
    (tool_a1_a2.add_arg "help").2.p_args "help" = some [] ∧
    tool_a1_a2.add_arg "a1" = (false, tool_a1_a2) :=
  have h := Tool_add_arg_spec tool_a1_a2 "help"
  have h1 := h.1 (by decide)
  ⟨by decide, h1.1, h1.2.1, (Tool_add_arg_spec tool_a1_a2 "a1").2.1 [] (by decide)⟩

/-- C8 (code bug, lines 93-100): with history `["a"]` for `x`, the call
`erase_arg_val("x", "b")` does not return, whatever the fuel: the loop never advances. -/
theorem erase_arg_val_never_returns :
    tool_x_a.p_args "x" = some ["a"] ∧
    ∀ fuel : Nat, tool_x_a.erase_arg_val fuel "x" "b" = none := by
  refine ⟨by decide, fun fuel => ?_⟩
  have hat : tool_x_a.at "x" = ["a"] := by decide
  have hs : (tool_x_a.p_args "x").isNone = false := by decide
  have hloop := erase_arg_val_loop_stuck ["a"] "a" "b" rfl (by decide) fuel
  simp [Tool.erase_arg_val, hs, hat, hloop]

/-- C9: `get_key(ptr)` returns `K` when `K` is the one key bound to the pointer `ptr`; it
fails with "tool not registered" exactly when no entry holds the pointer `ptr`; so it fails
for a tool freshly allocated by `make_shared`, whatever its content (a copy of a registered
tool included), when the registry holds only null pointers and pointers to objects of the
heap.  The function only reads the registry. -/
theorem Tool_Registry_get_key_spec (reg : Tool_Registry) (ptr : Ptr) :
    (∀ K, (K, ptr) ∈ reg.p_map → (∀ K1, (K1, ptr) ∈ reg.p_map → K1 = K) →
      reg.get_key ptr = Except.ok K) ∧
    (reg.get_key ptr = Except.error "tool not registered" ↔ ∀ kp ∈ reg.p_map, kp.2 ≠ ptr) ∧
    (∀ (heap : Heap) (t : Local_Tool),
      (∀ kp ∈ reg.p_map, kp.2 = none ∨ (deref heap kp.2).isSome = true) →
      deref (make_shared heap t).2 (make_shared heap t).1 = some t ∧
      reg.get_key (make_shared heap t).1 = Except.error "tool not registered") := by
  have hfail : ∀ p : Ptr, (∀ kp ∈ reg.p_map, kp.2 ≠ p) →
      reg.get_key p = Except.error "tool not registered" := by
    intro p hall
    have hnone : reg.p_map.find? (fun kp => decide (kp.2 = p)) = none := by
      rw [List.find?_eq_none]
      intro kp hkp
      simpa using hall kp hkp
    simp [Tool_Registry.get_key, hnone]
  refine ⟨fun K hmem huniq => ?_, ⟨fun herr kp hkp heq => ?_, hfail ptr⟩, fun heap t hlive => ?_⟩
  · cases hf : reg.p_map.find? (fun kp => decide (kp.2 = ptr)) with
    | none =>
      rw [List.find?_eq_none] at hf
      have hcon := hf (K, ptr) hmem
      simp at hcon
    | some kp =>
      have hp : kp.2 = ptr := by simpa using List.find?_some hf
      have hin : kp ∈ reg.p_map := List.mem_of_find?_eq_some hf
      have hk : kp.1 = K := huniq kp.1 (by rw [← hp]; exact hin)
      simp [Tool_Registry.get_key, hf, hk]
  · cases hf : reg.p_map.find? (fun kp => decide (kp.2 = ptr)) with
    | none =>
      rw [List.find?_eq_none] at hf
      have hcon := hf kp hkp
      simp [heq] at hcon
    | some kp1 => simp [Tool_Registry.get_key, hf] at herr
  · refine ⟨by simp [make_shared, deref], hfail _ ?_⟩
    intro kp hkp heq
    rcases hlive kp hkp with h | h
    · rw [h] at heq
      simp [make_shared] at heq
    · rw [heq] at h
      simp [make_shared, deref] at h

/-- Witness of C9: in the registry of `App.cpp` the first tool has the key `test`, and a
fresh copy of that tool is not registered. -/
theorem Tool_Registry_get_key_spec_witness :
    app_registry.get_key (some 0) = Except.ok "test" ∧
    deref app_heap (some 0) = deref (make_shared app_heap (Local_Tool.ctor "test tool" ["a1", "a2"])).2
      (make_shared app_heap (Local_Tool.ctor "test tool" ["a1", "a2"])).1 ∧
    app_registry.get_key (make_shared app_heap (Local_Tool.ctor "test tool" ["a1", "a2"])).1
      = Except.error "tool not registered" :=
  have h := (Tool_Registry_get_key_spec app_registry (some 0)).2.2 app_heap
    (Local_Tool.ctor "test tool" ["a1", "a2"]) (by decide)
  ⟨(Tool_Registry_get_key_spec app_registry (some 0)).1 "test" (by decide)
      (by
        intro K1 hK1
        simp [app_registry, Tool_Registry.insert, Tool_Registry.ctor, map_assign, map_find]
          at hK1
        exact hK1),
    h.1.symm ▸ rfl, h.2⟩

/-- C10 (code bug, line 68): a chain of two entries that both set `x -> v` on one tool
that recognises `x` with empty history is inserted, and the history of `x` is still empty,
not `["v", "v"]`. -/
theorem insert_tool_chain_two_entries_no_append :
    history_at (some heap_x) 0 "x" = some (some []) ∧
    history_at ((Tool_Chain_Registry.ctor.insert_tool_chain heap_x
      { entries := [entry_x_v, entry_x_v], description := "d" }).map (fun s => s.1)) 0 "x"
      = some (some []) := by
  decide

/-! ## Further facts on insert_tool_chain -/

theorem length_resize (s : String) (n : Nat) : (resize s n).length = n := by
  show (s.data.take n ++ List.replicate (n - s.data.length) padding).length = n
  rw [List.length_append, List.length_take, List.length_replicate]
  omega

theorem insert_tool_chain_eq_some (heap heap1 : Heap) (reg : Tool_Chain_Registry)
    (tc : Tool_Chain) (h : update_used_values heap tc.entries = some heap1) :
    reg.insert_tool_chain heap tc
      = some (heap1, { p_tool_chains := reg.p_tool_chains ++ [resize_buffers tc] }) := by
  simp only [Tool_Chain_Registry.insert_tool_chain, h]
  rw [modify_last_append]

theorem insert_tool_chain_stored (heap heap1 : Heap) (reg reg1 : Tool_Chain_Registry)
    (tc : Tool_Chain) (h : reg.insert_tool_chain heap tc = some (heap1, reg1)) :
    update_used_values heap tc.entries = some heap1 ∧
    reg1.p_tool_chains = reg.p_tool_chains ++ [resize_buffers tc] := by
  cases hu : update_used_values heap tc.entries with
  | none => simp [Tool_Chain_Registry.insert_tool_chain, hu] at h
  | some heap2 =>
    rw [insert_tool_chain_eq_some heap heap2 reg tc hu] at h
    simp only [Option.some.injEq, Prod.mk.injEq] at h
    obtain ⟨h1, h2⟩ := h
    subst h1
    subst h2
    exact ⟨rfl, rfl⟩

theorem deref_isSome_congr (heap heap1 : Heap) (hlen : heap1.length = heap.length)
    (ptr : Ptr) : (deref heap1 ptr).isSome = (deref heap ptr).isSome := by
  cases ptr with
  | none => rfl
  | some a =>
    by_cases ha : a < heap.length
    · simp [deref, List.getElem?_eq_getElem ha,
        List.getElem?_eq_getElem (show a < heap1.length by omega)]
    · simp [deref, List.getElem?_eq_none (Nat.le_of_not_lt ha),
        List.getElem?_eq_none (show heap1.length ≤ a by omega)]

theorem resize_buffers_capacity (tc : Tool_Chain) :
    (resize_buffers tc).description.length = 256 ∧
    ∀ e ∈ (resize_buffers tc).entries, ∀ kv ∈ e.launch_args, kv.2.length = 256 := by
  refine ⟨length_resize _ _, ?_⟩
  intro e he kv hkv
  simp only [resize_buffers, List.mem_map] at he
  obtain ⟨e0, _, rfl⟩ := he
  simp only [resize_launch_args, List.mem_map] at hkv
  obtain ⟨kv0, _, rfl⟩ := hkv
  exact length_resize _ _

theorem all_capacity_256_insert (heap heap1 : Heap) (reg reg1 : Tool_Chain_Registry)
    (tc : Tool_Chain) (hinv : all_capacity_256 reg)
    (h : reg.insert_tool_chain heap tc = some (heap1, reg1)) : all_capacity_256 reg1 := by
  obtain ⟨_, hst⟩ := insert_tool_chain_stored heap heap1 reg reg1 tc h
  intro c hc
  simp only [Tool_Chain_Registry.get_entries, hst, List.mem_append, List.mem_singleton] at hc
  rcases hc with hc | hc
  · exact hinv c hc
  · subst hc
    exact resize_buffers_capacity tc

theorem insert_tool_chains_capacity_aux (chains : List Tool_Chain) :
    ∀ (heap : Heap) (reg : Tool_Chain_Registry), all_capacity_256 reg →
    (∀ c ∈ chains, ∀ e ∈ c.entries, e.launch_args ≠ [] → (deref heap e.tool).isSome = true) →
    ∃ heap1 reg1, insert_tool_chains heap reg chains = some (heap1, reg1) ∧
      reg1.get_entries.length = reg.get_entries.length + chains.length ∧
      all_capacity_256 reg1 := by
  induction chains with
  | nil => intro heap reg hinv _; exact ⟨heap, reg, rfl, rfl, hinv⟩
  | cons c rest ih =>
    intro heap reg hinv hlive
    obtain ⟨heap1, hu, hlen⟩ :=
      update_used_values_live c.entries heap (hlive c (List.mem_cons_self _ _))
    have hins := insert_tool_chain_eq_some heap heap1 reg c hu
    have hinv1 := all_capacity_256_insert heap heap1 reg _ c hinv hins
    have hlive1 : ∀ c1 ∈ rest, ∀ e ∈ c1.entries, e.launch_args ≠ [] →
        (deref heap1 e.tool).isSome = true := by
      intro c1 hc1 e he hla
      rw [deref_isSome_congr heap heap1 hlen]
      exact hlive c1 (List.mem_cons_of_mem _ hc1) e he hla
    obtain ⟨heap2, reg2, hrun, hcount, hinv2⟩ := ih heap1 _ hinv1 hlive1
    refine ⟨heap2, reg2, by simp [insert_tool_chains, hins, hrun], ?_, hinv2⟩
    rw [hcount]
    simp [Tool_Chain_Registry.get_entries]
    omega

/-! ## Claims C11 to C20 -/

/-- C11: when every entry with launch arguments refers to a tool object,
`insert_tool_chain(c)` completes and `get_entries()` is the previous sequence followed by
exactly one new chain, which has as many entries as `c`, its i-th entry holding the same
tool pointer and the same argument names as the i-th entry of `c`. -/
theorem insert_tool_chain_appends (heap : Heap) (reg : Tool_Chain_Registry) (c : Tool_Chain)
    (hlive : ∀ e ∈ c.entries, e.launch_args ≠ [] → (deref heap e.tool).isSome = true) :
    ∃ heap1 reg1 stored, reg.insert_tool_chain heap c = some (heap1, reg1) ∧
      reg1.get_entries = reg.get_entries ++ [stored] ∧
      stored.entries.length = c.entries.length ∧
      stored.entries.map Tool_Chain_Entry.shape = c.entries.map Tool_Chain_Entry.shape := by
  obtain ⟨heap1, hu, _⟩ := update_used_values_live c.entries heap hlive
  refine ⟨heap1, _, resize_buffers c, insert_tool_chain_eq_some heap heap1 reg c hu, rfl,
    by simp [resize_buffers], ?_⟩
  simp only [resize_buffers, List.map_map]
  apply List.map_congr_left
  intro e _
  simp [Function.comp, Tool_Chain_Entry.shape, resize_launch_args]

/-- Witness of C11: the chain of `App.cpp`, three entries of which two are on the second
tool, inserted in the empty registry. -/
theorem insert_tool_chain_appends_witness :
    ∃ heap1 reg1 stored,
      Tool_Chain_Registry.ctor.insert_tool_chain app_heap app_chain = some (heap1, reg1) ∧
      reg1.get_entries = Tool_Chain_Registry.ctor.get_entries ++ [stored] ∧
      stored.entries.length = app_chain.entries.length ∧
      stored.entries.map Tool_Chain_Entry.shape = app_chain.entries.map Tool_Chain_Entry.shape :=
  insert_tool_chain_appends app_heap Tool_Chain_Registry.ctor app_chain (by decide)

/-- C12: from the empty registry, after `insert_tool_chain` was called for each chain of
any list (every entry with launch arguments referring to a tool object), there is one
stored chain for each call, and the description of every stored chain and every launch
value of every entry of every stored chain has length exactly 256. -/
theorem insert_tool_chains_capacity (heap : Heap) (chains : List Tool_Chain)
    (hlive : ∀ c ∈ chains, ∀ e ∈ c.entries, e.launch_args ≠ [] →
      (deref heap e.tool).isSome = true) :
    ∃ heap1 reg1, insert_tool_chains heap Tool_Chain_Registry.ctor chains = some (heap1, reg1) ∧
      reg1.get_entries.length = chains.length ∧
      ∀ tc ∈ reg1.get_entries, tc.description.length = 256 ∧
        ∀ e ∈ tc.entries, ∀ kv ∈ e.launch_args, kv.2.length = 256 := by
  obtain ⟨heap1, reg1, hrun, hcount, hinv⟩ :=
    insert_tool_chains_capacity_aux chains heap Tool_Chain_Registry.ctor
      (by intro tc htc; simp [Tool_Chain_Registry.get_entries, Tool_Chain_Registry.ctor] at htc)
      hlive
  refine ⟨heap1, reg1, hrun, ?_, hinv⟩
  rw [hcount]
  simp [Tool_Chain_Registry.get_entries, Tool_Chain_Registry.ctor]

/-- Witness of C12: the chain of `App.cpp` inserted twice. -/
theorem insert_tool_chains_capacity_witness :
    ∃ heap1 reg1,
      insert_tool_chains app_heap Tool_Chain_Registry.ctor [app_chain, app_chain]
        = some (heap1, reg1) ∧
      reg1.get_entries.length = [app_chain, app_chain].length ∧
      ∀ tc ∈ reg1.get_entries, tc.description.length = 256 ∧
        ∀ e ∈ tc.entries, ∀ kv ∈ e.launch_args, kv.2.length = 256 :=
  insert_tool_chains_capacity app_heap [app_chain, app_chain] (by decide)

/-- C13: for two `Local_Tool`s, `a == b` holds exactly when the paths are equal strings,
whatever the argument maps are; the two tools of `App.cpp`, same path and different
arguments, are equal; `==` is reflexive, symmetric and transitive. -/
theorem Local_Tool_eq_spec (a b c : Local_Tool) :
    (a.eq b = true ↔ a.p_path = b.p_path) ∧
    (∀ ta tb : Tool,
      Local_Tool.eq { a with toTool := ta } { b with toTool := tb } = a.eq b) ∧
    (app_tool.eq app_tool1 = true ∧ app_tool.p_args "a1" ≠ app_tool1.p_args "a1") ∧
    a.eq a = true ∧
    (a.eq b = true → b.eq a = true) ∧
    (a.eq b = true → b.eq c = true → a.eq c = true) := by
  refine ⟨by simp [Local_Tool.eq], fun _ _ => rfl, ⟨by decide, by decide⟩,
    by simp [Local_Tool.eq], ?_, ?_⟩
  · intro h
    simp only [Local_Tool.eq, decide_eq_true_eq] at h ⊢
    exact h.symm
  · intro h1 h2
    simp only [Local_Tool.eq, decide_eq_true_eq] at h1 h2 ⊢
    exact h1.trans h2

/-- Witness of C13: the two tools of `App.cpp` and a third tool with the same path. -/
theorem Local_Tool_eq_spec_witness :
    app_tool.eq app_tool1 = true ∧ app_tool1.eq app_tool = true ∧
    app_tool.eq (Local_Tool.ctor_path "test tool") = true :=
  have h := Local_Tool_eq_spec app_tool app_tool1 (Local_Tool.ctor_path "test tool")
  have h1 : app_tool.eq app_tool1 = true := h.1.2 (by decide)
  ⟨h1, h.2.2.2.2.1 h1, h.2.2.2.2.2 h1 (by decide)⟩

/-- C14: after `erase_arg(name)` the name is not recognised and every other argument has
the history it had; a tool that did not recognise the name is unchanged; a following
`add_arg(name)` returns true and gives the name the empty history. -/
theorem Tool_erase_arg_spec (t : Tool) (name : String) :
    (t.erase_arg name).p_args name = none ∧
    (∀ other, other ≠ name → (t.erase_arg name).p_args other = t.p_args other) ∧
    (t.p_args name = none → t.erase_arg name = t) ∧
    ((t.erase_arg name).add_arg name).1 = true ∧
    ((t.erase_arg name).add_arg name).2.p_args name = some [] := by
  have h1 : (t.erase_arg name).p_args name = none := by
    cases h : t.p_args name with
    | none => simp [Tool.erase_arg, h]
    | some hist => simp [Tool.erase_arg, h, args_erase]
  refine ⟨h1, ?_, ?_, ?_, ?_⟩
  · intro other hne
    cases h : t.p_args name with
    | none => simp [Tool.erase_arg, h]
    | some hist => simp [Tool.erase_arg, h, args_erase, hne]
  · intro h
    simp [Tool.erase_arg, h]
  · simp [Tool.add_arg, h1]
  · simp [Tool.add_arg, h1, Tool.index, args_set]

/-- Witness of C14: `erase_arg("x")` on the tool whose history for `x` is `["a"]`, and
`erase_arg("help")` on the tool of `App.cpp`, which does not recognise `help`. -/
theorem Tool_erase_arg_spec_witness :
    tool_x_a.p_args "x" = some ["a"] ∧ (tool_x_a.erase_arg "x").p_args "x" = none ∧
    tool_a1_a2.erase_arg "help" = tool_a1_a2 :=
  ⟨by decide, (Tool_erase_arg_spec tool_x_a "x").1,
    (Tool_erase_arg_spec tool_a1_a2 "help").2.2.1 (by decide)⟩

/-- C15: in the debug build `get_tool(key)` fails with "key is not registered" exactly
when the key is absent; the exception is thrown before anything is written, so the
registry stays as it was; for a key that is present the call returns the pointer stored
under the key together with the registry as it was. -/
theorem Tool_Registry_get_tool_debug (reg : Tool_Registry) (key : String) :
    (reg.get_tool true key = Except.error "key is not registered" ↔
      reg.contains key = false) ∧
    (∀ ptr, map_find reg.p_map key = some ptr → reg.get_tool true key = Except.ok (ptr, reg)) ∧
    (reg.contains key = true →
      ∃ ptr, map_find reg.p_map key = some ptr ∧ reg.get_tool true key = Except.ok (ptr, reg)) := by
  have hpres : ∀ ptr, map_find reg.p_map key = some ptr →
      reg.get_tool true key = Except.ok (ptr, reg) := by
    intro ptr h
    simp [Tool_Registry.get_tool, Tool_Registry.contains, h]
  refine ⟨?_, hpres, ?_⟩
  · cases h : map_find reg.p_map key with
    | none => simp [Tool_Registry.get_tool, Tool_Registry.contains, h]
    | some ptr => simp [hpres ptr h, Tool_Registry.contains, h]
  · intro hc
    cases h : map_find reg.p_map key with
    | none => simp [Tool_Registry.contains, h] at hc
    | some ptr => exact ⟨ptr, rfl, hpres ptr h⟩

/-- Witness of C15: in the registry of `App.cpp` the key `test` is found and the key
`nope` is not. -/
theorem Tool_Registry_get_tool_debug_witness :
    app_registry.get_tool true "test" = Except.ok (some 0, app_registry) ∧
    app_registry.get_tool true "nope" = Except.error "key is not registered" :=
  ⟨(Tool_Registry_get_tool_debug app_registry "test").2.1 (some 0) (by decide),
    (Tool_Registry_get_tool_debug app_registry "nope").1.2 (by decide)⟩

/-- C16 (code bug, line 68): the batch `add_arg_val("a1", ["v1", "v2"])` on the tool of
`App.cpp`, which recognises `a1` with empty history, leaves that history empty; on the
unrecognised `help` it records the first value only. -/
theorem add_arg_vals_drops_values :
    tool_a1_a2.p_args "a1" = some [] ∧
    (tool_a1_a2.add_arg_vals "a1" ["v1", "v2"]).p_args "a1" = some [] ∧
    tool_a1_a2.p_args "help" = none ∧
    (tool_a1_a2.add_arg_vals "help" ["v1", "v2"]).p_args "help" = some ["v1"] := by
  decide

/-- C19: in the build without `_DEBUG`, `get_tool(key)` and `operator[](key)` for an absent
key return the null pointer and bind the key to it, every other key as before, so that
`contains(key)` is true afterwards and `insert(key, t)` returns false for every `t`; for a
key that is present they return its pointer and the registry as it was. -/
theorem Tool_Registry_get_tool_unchecked (reg : Tool_Registry) (key : String) :
    reg.operator_index false key = reg.get_tool false key ∧
    (reg.contains key = false →
      ∃ reg1, reg.get_tool false key = Except.ok (none, reg1) ∧
        map_find reg1.p_map key = some none ∧
        (∀ k, k ≠ key → map_find reg1.p_map k = map_find reg.p_map k) ∧
        reg1.contains key = true ∧
        ∀ t, (reg1.insert key t).1 = false ∧ (reg1.insert key t).2 = reg1) ∧
    (∀ ptr, map_find reg.p_map key = some ptr →
      reg.get_tool false key = Except.ok (ptr, reg)) := by
  refine ⟨rfl, ?_, ?_⟩
  · intro hc
    have hnone : map_find reg.p_map key = none := by
      cases h : map_find reg.p_map key with
      | none => rfl
      | some p => simp [Tool_Registry.contains, h] at hc
    have hl : List.lookup key reg.p_map = none := hnone
    have hfind : map_find (reg.p_map ++ [(key, (none : Ptr))]) key = some none := by
      simp [map_find, List.lookup_append, hl]
    refine ⟨{ p_map := reg.p_map ++ [(key, none)] }, ?_, hfind, ?_, ?_, ?_⟩
    · simp [Tool_Registry.get_tool, hnone]
    · intro k hk
      have hk2 : (k == key) = false := by
        rw [beq_eq_false_iff_ne]
        exact hk
      have h0 : List.lookup k [(key, (none : Ptr))] = none := by
        simp [List.lookup_cons, hk2]
      simp [map_find, List.lookup_append, h0]
    · simp [Tool_Registry.contains, hfind]
    · intro t
      rw [Tool_Registry.insert_of_present _ key t (by simp [hfind])]
      exact ⟨rfl, rfl⟩
  · intro ptr h
    simp [Tool_Registry.get_tool, h]

/-- Witness of C19: in the registry of `App.cpp` the absent key `nope` is bound to the null
pointer by `get_tool`, and the present key `test` is returned. -/
theorem Tool_Registry_get_tool_unchecked_witness :
    app_registry.contains "nope" = false ∧
    (∃ reg1, app_registry.get_tool false "nope" = Except.ok (none, reg1) ∧
      reg1.contains "nope" = true ∧ (reg1.insert "nope" (some 0)).1 = false) ∧
    app_registry.get_tool false "test" = Except.ok (some 0, app_registry) :=
  have h := Tool_Registry_get_tool_unchecked app_registry "nope"
  ⟨by decide,
    (h.2.1 (by decide)).elim fun reg1 hr => ⟨reg1, hr.1, hr.2.2.2.1, (hr.2.2.2.2 (some 0)).1⟩,
    (Tool_Registry_get_tool_unchecked app_registry "test").2.2 (some 0) (by decide)⟩

/-! ## The loop of erase_arg_val -/

theorem erase_arg_val_loop_length (val : String) (list : List String) (it : Nat) :
    ∀ (fuel : Nat) (l : List String), erase_arg_val_loop fuel list it val = some l →
    l.length ≤ list.length := by
  intro fuel
  induction fuel with
  | zero => intro l h; simp [erase_arg_val_loop] at h
  | succ n ih =>
    intro l h
    unfold erase_arg_val_loop at h
    split at h
    · split at h
      · simp only [Option.some.injEq] at h
        subst h
        exact List.length_eraseIdx_le _ _
      · exact ih l h
    · simp only [Option.some.injEq] at h
      subst h
      exact le_refl _

theorem Tool.index_of_some (t : Tool) (arg : String) (hist : List String)
    (h : t.p_args arg = some hist) : t.index arg = t ∧ t.at arg = hist := by
  have h1 : t.index arg = t := by simp [Tool.index, h]
  exact ⟨h1, by simp [Tool.at, h1, h]⟩

theorem args_set_self (m : String → Option (List String)) (arg : String) (hist : List String)
    (h : m arg = some hist) : args_set m arg hist = m := by
  funext k
  by_cases hk : k = arg
  · simp [args_set, hk, h]
  · simp [args_set, hk]

/-- C18: when the name is not recognised, or its history is empty, `erase_arg_val` returns
(any fuel of at least one step) and the tool is unchanged; when the first value of the
history is `value` it returns and leaves the rest of the history, other arguments
unchanged; when the history starts with another value it never returns, whatever the
fuel, since the loop does not advance its iterator. -/
theorem erase_arg_val_returns_iff (t : Tool) (name value : String) :
    (t.p_args name = none → ∀ fuel, t.erase_arg_val (fuel + 1) name value = some t) ∧
    (t.p_args name = some [] → ∀ fuel, t.erase_arg_val (fuel + 1) name value = some t) ∧
    (∀ rest, t.p_args name = some (value :: rest) →
      ∀ fuel, t.erase_arg_val (fuel + 1) name value
        = some { p_args := args_set t.p_args name rest }) ∧
    (∀ first rest, t.p_args name = some (first :: rest) → first ≠ value →
      ∀ fuel, t.erase_arg_val fuel name value = none) := by
  refine ⟨fun h fuel => by simp [Tool.erase_arg_val, h], fun h fuel => ?_,
    fun rest h fuel => ?_, fun first rest h hne fuel => ?_⟩
  · obtain ⟨hi, hat⟩ := Tool.index_of_some t name [] h
    simp only [Tool.erase_arg_val, h, hi, hat, erase_arg_val_loop, Option.isNone_some,
      Bool.false_eq_true, if_false, List.length_nil, Nat.lt_irrefl, dite_false]
    rw [args_set_self t.p_args name [] h]
  · obtain ⟨hi, hat⟩ := Tool.index_of_some t name _ h
    simp [Tool.erase_arg_val, h, hi, hat, erase_arg_val_loop]
  · obtain ⟨hi, hat⟩ := Tool.index_of_some t name _ h
    have hloop := erase_arg_val_loop_stuck (first :: rest) first value
      (List.getElem?_cons_zero) (fun hv => hne hv.symm) fuel
    simp [Tool.erase_arg_val, h, hat, hloop]

/-- Witness of C18: on the tool whose history for `x` is `["a"]`, erasing `a` returns and
empties the history, and erasing from the unrecognised `y` returns the tool as it was. -/
theorem erase_arg_val_returns_iff_witness :
    tool_x_a.erase_arg_val 1 "x" "a" = some { p_args := args_set tool_x_a.p_args "x" [] } ∧
    tool_x_a.erase_arg_val 1 "y" "a" = some tool_x_a ∧
    tool_x_a.erase_arg_val 5 "x" "b" = none :=
  ⟨(erase_arg_val_returns_iff tool_x_a "x" "a").2.2.1 [] (by decide) 0,
    (erase_arg_val_returns_iff tool_x_a "y" "a").1 (by decide) 0,
    (erase_arg_val_returns_iff tool_x_a "x" "b").2.2.2 "a" [] (by decide) (by decide) 5⟩

/-! ## The length of the histories -/

theorem histories_short_args_set (m : String → Option (List String)) (arg : String)
    (hist : List String) (hm : histories_short { p_args := m }) (hlen : hist.length ≤ 1) :
    histories_short { p_args := args_set m arg hist } := by
  intro k h hk
  by_cases hka : k = arg
  · simp only [args_set, hka, if_true, Option.some.injEq] at hk
    rw [← hk]
    exact hlen
  · simp only [args_set, hka, if_false] at hk
    exact hm k h hk

theorem histories_short_index (t : Tool) (arg : String) (ht : histories_short t) :
    histories_short (t.index arg) := by
  cases h : t.p_args arg with
  | some hist => simpa [Tool.index, h] using ht
  | none =>
    simp only [Tool.index, h]
    exact histories_short_args_set t.p_args arg [] ht (by simp)

theorem histories_short_ctor_args (args : List String) :
    histories_short (Tool.ctor_args args) := by
  have hgen : ∀ (l : List String) (t : Tool), histories_short t →
      histories_short (l.foldl (fun t arg => t.index arg) t) := by
    intro l
    induction l with
    | nil => intro t ht; exact ht
    | cons a rest ih => intro t ht; exact ih _ (histories_short_index t a ht)
  exact hgen args Tool.ctor (by intro k h hk; simp [Tool.ctor] at hk)

theorem histories_short_add_arg (t : Tool) (arg : String) (ht : histories_short t) :
    histories_short (t.add_arg arg).2 := by
  unfold Tool.add_arg
  split
  · exact ht
  · exact histories_short_index t arg ht

theorem histories_short_add_arg_val (t : Tool) (arg val : String) (ht : histories_short t) :
    histories_short (t.add_arg_val arg val).2 := by
  cases h : t.p_args arg with
  | some hist =>
    rw [Tool.add_arg_val_of_isSome t arg val (by simp [h])]
    exact ht
  | none =>
    rw [Tool.add_arg_val_of_none t arg val h]
    exact histories_short_args_set t.p_args arg [val] ht (by simp)

theorem histories_short_add_arg_vals (arg : String) (vals : List String) :
    ∀ t : Tool, histories_short t → histories_short (t.add_arg_vals arg vals) := by
  induction vals with
  | nil => intro t ht; exact ht
  | cons v rest ih =>
    intro t ht
    exact ih _ (histories_short_add_arg_val t arg v ht)

theorem histories_short_erase_arg (t : Tool) (arg : String) (ht : histories_short t) :
    histories_short (t.erase_arg arg) := by
  cases h : t.p_args arg with
  | none => simpa [Tool.erase_arg, h] using ht
  | some hist =>
    simp only [Tool.erase_arg, h]
    intro k hs hk
    by_cases hka : k = arg
    · simp [args_erase, hka] at hk
    · simp only [args_erase, hka, if_false] at hk
      exact ht k hs hk

theorem histories_short_erase_arg_val (fuel : Nat) (t t1 : Tool) (arg val : String)
    (ht : histories_short t) (h : t.erase_arg_val fuel arg val = some t1) :
    histories_short t1 := by
  cases hp : t.p_args arg with
  | none =>
    simp only [Tool.erase_arg_val, hp, Option.isNone_none, if_true, Option.some.injEq] at h
    rw [← h]
    exact ht
  | some hist =>
    obtain ⟨hi, hat⟩ := Tool.index_of_some t arg hist hp
    simp only [Tool.erase_arg_val, hp, Option.isNone_some, Bool.false_eq_true, if_false,
      hi, hat] at h
    cases hl : erase_arg_val_loop fuel hist 0 val with
    | none => simp [hl] at h
    | some l =>
      simp only [hl, Option.some.injEq] at h
      rw [← h]
      have hlen := erase_arg_val_loop_length val hist 0 fuel l hl
      exact histories_short_args_set t.p_args arg l ht (le_trans hlen (ht arg hist hp))

/-- Every object of the heap has short histories. -/
theorem heap_short_set (heap : Heap) (a : Nat) (obj : Local_Tool)
    (hheap : ∀ o ∈ heap, histories_short o.toTool) (hobj : histories_short obj.toTool) :
    ∀ o ∈ heap.set a obj, histories_short o.toTool := by
  intro o ho
  rcases List.mem_or_eq_of_mem_set ho with h | h
  · exact hheap o h
  · rw [h]
    exact hobj

theorem heap_short_ptr_call (heap heap1 : Heap) (ptr : Ptr) (f : Tool → Option Tool)
    (hf : ∀ t t1, histories_short t → f t = some t1 → histories_short t1)
    (hheap : ∀ o ∈ heap, histories_short o.toTool)
    (h : ptr_call heap ptr f = some heap1) : ∀ o ∈ heap1, histories_short o.toTool := by
  cases ptr with
  | none => simp [ptr_call] at h
  | some a =>
    cases ho : heap[a]? with
    | none => simp [ptr_call, ho] at h
    | some obj =>
      cases hfo : f obj.toTool with
      | none => simp [ptr_call, ho, hfo] at h
      | some t =>
        simp only [ptr_call, ho, hfo, Option.some.injEq] at h
        rw [← h]
        exact heap_short_set heap a _ hheap
          (hf obj.toTool t (hheap obj (List.getElem?_mem ho)) hfo)

theorem heap_short_ptr_add_arg_val (heap : Heap) (ptr : Ptr) (arg val : String)
    (r : Bool × Heap) (hheap : ∀ o ∈ heap, histories_short o.toTool)
    (h : ptr_add_arg_val heap ptr arg val = some r) :
    ∀ o ∈ r.2, histories_short o.toTool := by
  cases ptr with
  | none => simp [ptr_add_arg_val] at h
  | some a =>
    cases ho : heap[a]? with
    | none => simp [ptr_add_arg_val, ho] at h
    | some obj =>
      simp only [ptr_add_arg_val, ho, Option.some.injEq] at h
      rw [← h]
      exact heap_short_set heap a _ hheap
        (histories_short_add_arg_val obj.toTool arg val (hheap obj (List.getElem?_mem ho)))

theorem heap_short_update_arg_vals (tool : Ptr) (launch_args : List (String × String)) :
    ∀ heap heap1 : Heap, (∀ o ∈ heap, histories_short o.toTool) →
    update_arg_vals heap tool launch_args = some heap1 →
    ∀ o ∈ heap1, histories_short o.toTool := by
  induction launch_args with
  | nil =>
    intro heap heap1 hheap h
    simp only [update_arg_vals, Option.some.injEq] at h
    rw [← h]
    exact hheap
  | cons kv rest ih =>
    intro heap heap1 hheap h
    obtain ⟨arg, val⟩ := kv
    cases hr : ptr_add_arg_val heap tool arg val with
    | none => simp [update_arg_vals, hr] at h
    | some r =>
      simp only [update_arg_vals, hr] at h
      exact ih r.2 heap1 (heap_short_ptr_add_arg_val heap tool arg val r hheap hr) h

theorem heap_short_update_used_values (entries : List Tool_Chain_Entry) :
    ∀ heap heap1 : Heap, (∀ o ∈ heap, histories_short o.toTool) →
    update_used_values heap entries = some heap1 →
    ∀ o ∈ heap1, histories_short o.toTool := by
  induction entries with
  | nil =>
    intro heap heap1 hheap h
    simp only [update_used_values, Option.some.injEq] at h
    rw [← h]
    exact hheap
  | cons e rest ih =>
    intro heap heap1 hheap h
    cases hu : update_arg_vals heap e.tool e.launch_args with
    | none => simp [update_used_values, hu] at h
    | some heap2 =>
      simp only [update_used_values, hu] at h
      exact ih heap2 heap1 (heap_short_update_arg_vals e.tool e.launch_args heap heap2 hheap hu) h

theorem heap_short_make_shared (heap : Heap) (obj : Local_Tool)
    (hheap : ∀ o ∈ heap, histories_short o.toTool) (hobj : histories_short obj.toTool) :
    ∀ o ∈ (make_shared heap obj).2, histories_short o.toTool := by
  intro o ho
  simp only [make_shared, List.mem_append, List.mem_singleton] at ho
  rcases ho with h | h
  · exact hheap o h
  · rw [h]
    exact hobj

theorem heap_short_call (c : Call) (s s1 : Heap × Tool_Chain_Registry)
    (hheap : ∀ o ∈ s.1, histories_short o.toTool) (h : c.run s = some s1) :
    ∀ o ∈ s1.1, histories_short o.toTool := by
  have hmap : ∀ (r : Option Heap), r.map (fun h => (h, s.2)) = some s1 → r = some s1.1 := by
    intro r hr
    cases r with
    | none => simp at hr
    | some h0 =>
      simp only [Option.map_some', Option.some.injEq] at hr
      rw [← hr]
  cases c with
  | Local_Tool p args =>
    simp only [Call.run, Option.some.injEq] at h
    rw [← h]
    exact heap_short_make_shared s.1 _ hheap (histories_short_ctor_args args)
  | Local_Tool_path p =>
    simp only [Call.run, Option.some.injEq] at h
    rw [← h]
    exact heap_short_make_shared s.1 _ hheap (by intro k hs hk; simp [Local_Tool.ctor_path, Tool.ctor] at hk)
  | add_arg ptr arg =>
    refine heap_short_ptr_call s.1 s1.1 ptr _ ?_ hheap (hmap _ h)
    intro t t1 ht hf
    simp only [Option.some.injEq] at hf
    rw [← hf]
    exact histories_short_add_arg t arg ht
  | add_arg_val ptr arg val =>
    refine heap_short_ptr_call s.1 s1.1 ptr _ ?_ hheap (hmap _ h)
    intro t t1 ht hf
    simp only [Option.some.injEq] at hf
    rw [← hf]
    exact histories_short_add_arg_val t arg val ht
  | add_arg_vals ptr arg vals =>
    refine heap_short_ptr_call s.1 s1.1 ptr _ ?_ hheap (hmap _ h)
    intro t t1 ht hf
    simp only [Option.some.injEq] at hf
    rw [← hf]
    exact histories_short_add_arg_vals arg vals t ht
  | erase_arg ptr arg =>
    refine heap_short_ptr_call s.1 s1.1 ptr _ ?_ hheap (hmap _ h)
    intro t t1 ht hf
    simp only [Option.some.injEq] at hf
    rw [← hf]
    exact histories_short_erase_arg t arg ht
  | erase_arg_val fuel ptr arg val =>
    refine heap_short_ptr_call s.1 s1.1 ptr _ ?_ hheap (hmap _ h)
    intro t t1 ht hf
    exact histories_short_erase_arg_val fuel t t1 arg val ht hf
  | insert_tool_chain tc =>
    obtain ⟨heap1, reg1⟩ := s1
    obtain ⟨hu, _⟩ := insert_tool_chain_stored s.1 heap1 s.2 reg1 tc h
    exact heap_short_update_used_values tc.entries s.1 heap1 hheap hu

theorem heap_short_run_calls (calls : List Call) :
    ∀ s s1 : Heap × Tool_Chain_Registry, (∀ o ∈ s.1, histories_short o.toTool) →
    run_calls s calls = some s1 → ∀ o ∈ s1.1, histories_short o.toTool := by
  induction calls with
  | nil =>
    intro s s1 hheap h
    simp only [run_calls, Option.some.injEq] at h
    rw [← h]
    exact hheap
  | cons c rest ih =>
    intro s s1 hheap h
    cases hc : c.run s with
    | none => simp [run_calls, hc] at h
    | some s2 =>
      simp only [run_calls, hc] at h
      exact ih s2 s1 (heap_short_call c s s2 hheap hc) h

/-- C17: starting with no tools, after any sequence of calls of the `Local_Tool`
constructors, `add_arg`, `add_arg_val` (single and batch), `erase_arg`, `erase_arg_val` and
`insert_tool_chain` that returns, every recognised argument of every tool holds at most
one value; the state after every prefix of the calls is such a state, so this holds at
every point. -/
theorem histories_hold_at_most_one (reg : Tool_Chain_Registry) (calls : List Call)
    (s : Heap × Tool_Chain_Registry) (h : run_calls ([], reg) calls = some s) :
    ∀ obj ∈ s.1, ∀ arg hist, obj.p_args arg = some hist → hist.length ≤ 1 :=
  heap_short_run_calls calls ([], reg) s (by intro o ho; simp at ho) h

/-- Witness of C17: the sample sequence, which uses every kind of call, returns, and the
histories of its tools hold at most one value. -/
theorem histories_hold_at_most_one_witness :
    ∃ s, run_calls ([], Tool_Chain_Registry.ctor) sample_calls = some s ∧
      history_at (some s.1) 1 "w" = some (some ["v1"]) ∧
      ∀ obj ∈ s.1, ∀ arg hist, obj.p_args arg = some hist → hist.length ≤ 1 :=
  match hs : run_calls ([], Tool_Chain_Registry.ctor) sample_calls with
  | some s => ⟨s, rfl, by
      have h2 : history_at ((run_calls ([], Tool_Chain_Registry.ctor) sample_calls).map
          (fun s => s.1)) 1 "w" = some (some ["v1"]) := by decide
      rw [hs] at h2
      exact h2,
      histories_hold_at_most_one Tool_Chain_Registry.ctor sample_calls s hs⟩
  | none => absurd hs (by
      have h1 : (run_calls ([], Tool_Chain_Registry.ctor) sample_calls).isSome = true := by
        decide
      intro h0
      rw [h0] at h1
      exact absurd h1 (by simp))

/-! ## The order of the pairs of launch_args -/

theorem args_set_comm (m : String → Option (List String)) (a b : String)
    (ha hb : List String) (hne : a ≠ b) :
    args_set (args_set m a ha) b hb = args_set (args_set m b hb) a ha := by
  funext k
  by_cases hka : k = a
  · have hkb : k ≠ b := fun h => hne (hka.symm.trans h)
    simp [args_set, hka, hne]
  · by_cases hkb : k = b
    · simp [args_set, hkb, Ne.symm hne]
    · simp [args_set, hka, hkb]

theorem Tool.add_arg_val_comm (t : Tool) (a b va vb : String) (hne : a ≠ b) :
    ((t.add_arg_val a va).2.add_arg_val b vb).2 = ((t.add_arg_val b vb).2.add_arg_val a va).2 := by
  cases ha : t.p_args a with
  | some hista =>
    rw [Tool.add_arg_val_of_isSome t a va (by simp [ha])]
    cases hb : t.p_args b with
    | some histb =>
      rw [Tool.add_arg_val_of_isSome t b vb (by simp [hb])]
      rw [Tool.add_arg_val_of_isSome t a va (by simp [ha])]
    | none =>
      rw [Tool.add_arg_val_of_none t b vb hb]
      rw [Tool.add_arg_val_of_isSome _ a va (by simp [args_set, hne, ha])]
  | none =>
    rw [Tool.add_arg_val_of_none t a va ha]
    cases hb : t.p_args b with
    | some histb =>
      rw [Tool.add_arg_val_of_isSome t b vb (by simp [hb])]
      rw [Tool.add_arg_val_of_isSome _ b vb (by simp [args_set, Ne.symm hne, hb])]
      rw [Tool.add_arg_val_of_none t a va ha]
    | none =>
      rw [Tool.add_arg_val_of_none t b vb hb]
      rw [Tool.add_arg_val_of_none _ b vb (by simp [args_set, Ne.symm hne, hb])]
      rw [Tool.add_arg_val_of_none _ a va (by simp [args_set, hne, ha])]
      simp only [args_set_comm t.p_args a b [va] [vb] hne]

theorem Tool.add_launch_args_perm (launch_args launch_args1 : List (String × String))
    (hperm : launch_args.Perm launch_args1)
    (hnodup : (launch_args.map (fun kv => kv.1)).Nodup) (t : Tool) :
    t.add_launch_args launch_args = t.add_launch_args launch_args1 := by
  unfold Tool.add_launch_args
  apply List.Perm.foldl_eq' hperm
  intro x hx y hy z
  by_cases hxy : x.1 = y.1
  · have hxy2 : x = y := List.inj_on_of_nodup_map hnodup hx hy hxy
    rw [hxy2]
  · exact Tool.add_arg_val_comm z x.1 y.1 x.2 y.2 hxy

theorem set_set_same {α : Type} (l : List α) (a : Nat) (x y : α) :
    (l.set a x).set a y = l.set a y := List.set_set x y l a

theorem set_of_getElem? {α : Type} (l : List α) (a : Nat) (x : α) (h : l[a]? = some x) :
    l.set a x = l := by
  apply List.ext_getElem?
  intro n
  rw [List.getElem?_set]
  by_cases hn : a = n
  · subst hn
    have hlt : a < l.length := by
      by_contra hge
      rw [List.getElem?_eq_none (Nat.le_of_not_lt hge)] at h
      cases h
    simp [hlt, h]
  · simp [hn]

theorem update_arg_vals_eq_set (a : Nat) (launch_args : List (String × String)) :
    ∀ (heap : Heap) (obj : Local_Tool), heap[a]? = some obj →
    update_arg_vals heap (some a) launch_args
      = some (heap.set a { obj with toTool := obj.toTool.add_launch_args launch_args }) := by
  induction launch_args with
  | nil =>
    intro heap obj ho
    simp only [update_arg_vals, Tool.add_launch_args, List.foldl_nil]
    rw [set_of_getElem? heap a obj ho]
  | cons kv rest ih =>
    intro heap obj ho
    obtain ⟨arg, val⟩ := kv
    have hlt : a < heap.length := by
      by_contra hge
      rw [List.getElem?_eq_none (Nat.le_of_not_lt hge)] at ho
      cases ho
    simp only [update_arg_vals, ptr_add_arg_val, ho]
    rw [ih _ { obj with toTool := (obj.toTool.add_arg_val arg val).2 }
      (List.getElem?_set_self hlt)]
    rw [set_set_same]
    rfl

theorem update_arg_vals_no_object (heap : Heap) (tool : Ptr)
    (launch_args : List (String × String)) (hd : deref heap tool = none)
    (hne : launch_args ≠ []) : update_arg_vals heap tool launch_args = none := by
  cases launch_args with
  | nil => exact absurd rfl hne
  | cons kv rest =>
    obtain ⟨arg, val⟩ := kv
    cases tool with
    | none => simp [update_arg_vals, ptr_add_arg_val]
    | some a =>
      have ho : heap[a]? = none := hd
      simp [update_arg_vals, ptr_add_arg_val, ho]

theorem update_arg_vals_perm (heap : Heap) (tool : Ptr)
    (launch_args launch_args1 : List (String × String))
    (hperm : launch_args.Perm launch_args1)
    (hnodup : (launch_args.map (fun kv => kv.1)).Nodup) :
    update_arg_vals heap tool launch_args = update_arg_vals heap tool launch_args1 := by
  by_cases hnil : launch_args = []
  · subst hnil
    rw [← hperm.nil_eq]
  · have hnil1 : launch_args1 ≠ [] := fun h => hnil (by rw [h] at hperm; exact hperm.eq_nil)
    cases hd : deref heap tool with
    | none =>
      rw [update_arg_vals_no_object heap tool _ hd hnil,
        update_arg_vals_no_object heap tool _ hd hnil1]
    | some obj =>
      cases tool with
      | none => simp [deref] at hd
      | some a =>
        have ho : heap[a]? = some obj := hd
        rw [update_arg_vals_eq_set a launch_args heap obj ho,
          update_arg_vals_eq_set a launch_args1 heap obj ho,
          Tool.add_launch_args_perm launch_args launch_args1 hperm hnodup]

theorem update_used_values_same_maps (entries : List Tool_Chain_Entry) :
    ∀ entries1 : List Tool_Chain_Entry,
    List.Forall₂ Tool_Chain_Entry.same_map entries entries1 →
    (∀ e ∈ entries, (e.launch_args.map (fun kv => kv.1)).Nodup) →
    ∀ heap : Heap, update_used_values heap entries = update_used_values heap entries1 := by
  induction entries with
  | nil =>
    intro entries1 hrel _ heap
    cases hrel
    rfl
  | cons e rest ih =>
    intro entries1 hrel hnodup heap
    cases hrel with
    | cons hhead htail =>
      rename_i e1 rest1
      have hstep : update_arg_vals heap e.tool e.launch_args
          = update_arg_vals heap e1.tool e1.launch_args := by
        rw [← hhead.1]
        exact update_arg_vals_perm heap e.tool _ _ hhead.2 (hnodup e (List.mem_cons_self _ _))
      simp only [update_used_values, hstep]
      cases update_arg_vals heap e1.tool e1.launch_args with
      | none => rfl
      | some heap1 =>
        exact ih rest1 htail (fun e2 he2 => hnodup e2 (List.mem_cons_of_mem _ he2)) heap1

theorem resize_entries_same_map (entries : List Tool_Chain_Entry) :
    ∀ entries1 : List Tool_Chain_Entry,
    List.Forall₂ Tool_Chain_Entry.same_map entries entries1 →
    List.Forall₂ Tool_Chain_Entry.same_map
      (entries.map (fun e => { e with launch_args := resize_launch_args e.launch_args }))
      (entries1.map (fun e => { e with launch_args := resize_launch_args e.launch_args })) := by
  induction entries with
  | nil =>
    intro entries1 hrel
    cases hrel
    exact List.Forall₂.nil
  | cons e rest ih =>
    intro entries1 hrel
    cases hrel with
    | cons hhead htail =>
      exact List.Forall₂.cons ⟨hhead.1, List.Perm.map _ hhead.2⟩ (ih _ htail)

theorem resize_buffers_same_maps (c c1 : Tool_Chain) (h : c.same_maps c1) :
    (resize_buffers c).same_maps (resize_buffers c1) :=
  ⟨by simp [resize_buffers, h.1], resize_entries_same_map c.entries c1.entries h.2⟩

/-- C20: for two chains that are the same up to the order in which the pairs of each
entry's `launch_args` are listed, the names of one entry being pairwise distinct,
`insert_tool_chain` returns for both or for none, leaves the same heap (the same argument
maps of all tools) and stores the same chain up to that order; the order of the entries
can matter: the entries `x -> v` and `x -> w` on one tool leave `["v"]` in one order and
`["w"]` in the other. -/
theorem insert_tool_chain_order_independent (heap : Heap) (reg : Tool_Chain_Registry)
    (c c1 : Tool_Chain) (hsame : c.same_maps c1)
    (hnodup : ∀ e ∈ c.entries, (e.launch_args.map (fun kv => kv.1)).Nodup) :
    (reg.insert_tool_chain heap c).map (fun s => s.1)
      = (reg.insert_tool_chain heap c1).map (fun s => s.1) ∧
    (∀ s s1, reg.insert_tool_chain heap c = some s → reg.insert_tool_chain heap c1 = some s1 →
      ∃ stored stored1, s.2.get_entries = reg.get_entries ++ [stored] ∧
        s1.2.get_entries = reg.get_entries ++ [stored1] ∧ stored.same_maps stored1) ∧
    (history_at ((Tool_Chain_Registry.ctor.insert_tool_chain heap_none
        { entries := [entry_x_v, entry_x_w], description := "d" }).map (fun s => s.1)) 0 "x"
        = some (some ["v"]) ∧
      history_at ((Tool_Chain_Registry.ctor.insert_tool_chain heap_none
        { entries := [entry_x_w, entry_x_v], description := "d" }).map (fun s => s.1)) 0 "x"
        = some (some ["w"])) := by
  have hu := update_used_values_same_maps c.entries c1.entries hsame.2 hnodup heap
  refine ⟨?_, ?_, by decide, by decide⟩
  · simp only [Tool_Chain_Registry.insert_tool_chain, ← hu]
    cases update_used_values heap c.entries with
    | none => rfl
    | some heap1 => rfl
  · intro s s1 hs hs1
    obtain ⟨heap1, reg1⟩ := s
    obtain ⟨heap2, reg2⟩ := s1
    obtain ⟨_, hst⟩ := insert_tool_chain_stored heap heap1 reg reg1 c hs
    obtain ⟨_, hst1⟩ := insert_tool_chain_stored heap heap2 reg reg2 c1 hs1
    exact ⟨resize_buffers c, resize_buffers c1, hst, hst1, resize_buffers_same_maps c c1 hsame⟩

/-- Witness of C20: the entry `{x -> v, y -> w}` on a tool without arguments, its pairs
visited in the two orders. -/
theorem insert_tool_chain_order_independent_witness :
    (Tool_Chain_Registry.ctor.insert_tool_chain heap_none
        { entries := [entry_xy], description := "d" }).map (fun s => s.1)
      = (Tool_Chain_Registry.ctor.insert_tool_chain heap_none
        { entries := [entry_yx], description := "d" }).map (fun s => s.1) ∧
    history_at ((Tool_Chain_Registry.ctor.insert_tool_chain heap_none
        { entries := [entry_xy], description := "d" }).map (fun s => s.1)) 0 "y"
      = some (some ["w"]) :=
  ⟨(insert_tool_chain_order_independent heap_none Tool_Chain_Registry.ctor
      { entries := [entry_xy], description := "d" }
      { entries := [entry_yx], description := "d" }
      ⟨rfl, List.Forall₂.cons ⟨rfl, by
        show List.Perm [("x", "v"), ("y", "w")] [("y", "w"), ("x", "v")]
        exact List.Perm.swap _ _ _⟩ List.Forall₂.nil⟩
      (by
        intro e he
        simp only [List.mem_singleton] at he
        subst he
        decide)).1,
    by decide⟩

end Tools
